import Mathlib

/-
Verification of the frame-compositing engine and URL tracking augmenter of
the cherry QR video generator (src/server.py), as a shallow embedding.

Conventions of the embedding:
* Python integers are `Int` (or `Nat` where the source value is a size),
  Python floor division `//` is `Int.fdiv`, Python `int()` applied to a
  float is truncation toward zero (`truncR` below), and the float
  expression `int(min(w, h) * 0.18)` is `min w h * 18 / 100` (exact for
  all realistic frame sizes, since 18x/100 is never within double-rounding
  distance of an integer it does not reach).
* A video frame is a total pixel map `Frame := ℤ × ℤ → Pix`; drawing
  primitives of the source (cv2.rectangle, cv2.putText, numpy slice
  assignment, cv2.addWeighted) become pointwise updates on it.  Text and
  resized-QR rasterization is backend-dependent, so glyph pixels and the
  resized QR are parameters; their footprints come from the source's
  coordinates.
* The frame loop of `add_qr_to_video` becomes a structural recursion over
  the source's frame list; stream opening and frame writes are recorded as
  an explicit event trace so that ordering claims are statable.
-/

/-- Source line 277: `margin = 15`. -/
def margin : ℤ := 15

/-- Source line 273: `container_padding = 12`. -/
def container_padding : ℤ := 12

/-- Source line 270: `qr_display_size = int(min(width, height) * 0.18)`. -/
def qr_display_size (w h : ℕ) : ℕ := min w h * 18 / 100

/-- Source line 274: `container_width = qr_display_size + (container_padding * 2)`. -/
def container_width (w h : ℕ) : ℕ := qr_display_size w h + 24

/-- Source line 275: `container_height = qr_display_size + 70`. -/
def container_height (w h : ℕ) : ℕ := qr_display_size w h + 70

/-- Source line 278: `base_container_x = width - container_width - margin`. -/
def base_container_x (w h : ℕ) : ℤ := (w : ℤ) - container_width w h - margin

/-- Source line 279: `base_container_y = (height - container_height) // 2`
(Python `//` is floor division, hence `Int.fdiv`). -/
def base_container_y (w h : ℕ) : ℤ := Int.fdiv ((h : ℤ) - container_height w h) 2

/-- Source line 333: `qr_x = container_x + (container_width - qr_display_size) // 2`. -/
def qr_x_of (w h : ℕ) (cx : ℤ) : ℤ :=
  cx + Int.fdiv ((container_width w h : ℤ) - qr_display_size w h) 2

/-- Source line 334: `qr_y = container_y + 58`. -/
def qr_y_of (cy : ℤ) : ℤ := cy + 58

/-- The numpy assignment of lines 335-336 writes rows
`[qr_y, qr_y + qr_display_size)` and columns `[qr_x, qr_x + qr_display_size)`;
this predicate says that window lies inside a `w × h` frame buffer. -/
def pasteInsideFrame (w h : ℕ) (cx cy : ℤ) : Prop :=
  0 ≤ qr_x_of w h cx ∧ qr_x_of w h cx + qr_display_size w h ≤ (w : ℤ) ∧
  0 ≤ qr_y_of cy ∧ qr_y_of cy + qr_display_size w h ≤ (h : ℤ)

instance (w h : ℕ) (cx cy : ℤ) : Decidable (pasteInsideFrame w h cx cy) := by
  unfold pasteInsideFrame; infer_instance

/-- C2: the compositor does NOT clamp card geometry to the frame.  At the
static base position of a 400×40 frame the computed QR paste window
(rows 39..46 of a 40-row buffer) extends below the frame, so the numpy
slice assignment of lines 335-336 indexes outside the frame buffer
(raising ValueError) instead of being clamped as the spec requires. -/
theorem qr_paste_escapes_frame_400x40 :
    ¬ pasteInsideFrame 400 40 (base_container_x 400 40) (base_container_y 400 40) := by
  decide

/-- An RGB pixel; channel values of a decoded uint8 frame lie in 0..255. -/
abbrev Pix := ℕ × ℕ × ℕ

/-- All three channels are valid uint8 values. -/
def PixLe255 (a : Pix) : Prop := a.1 ≤ 255 ∧ a.2.1 ≤ 255 ∧ a.2.2 ≤ 255

instance (a : Pix) : Decidable (PixLe255 a) := by
  unfold PixLe255; infer_instance

/-- A video frame as a total pixel map (the drawing claims only concern
coordinates inside the buffer, constrained by hypotheses). -/
abbrev Frame := ℤ × ℤ → Pix

/-- Source line 310: the card fill color `(255, 255, 255)`. -/
def cardWhite : Pix := (255, 255, 255)

/-- Source line 312: `wood_color = (102, 153, 204)`. -/
def wood_color : Pix := (102, 153, 204)

/-- One channel of `cv2.addWeighted(overlay, 0.95, frame, 0.05, 0)`:
`saturate(round(0.95*a + 0.05*b))`, i.e. `min 255 ((19*a + b + 10) / 20)`
(rounding half up; 0.95 = 19/20, 0.05 = 1/20). -/
def blendChan (a b : ℕ) : ℕ := min 255 ((19 * a + b + 10) / 20)

/-- Source line 339 per pixel: blend each channel at fixed opacity 0.95. -/
def blendPix (a b : Pix) : Pix :=
  (blendChan a.1 b.1, blendChan a.2.1 b.2.1, blendChan a.2.2 b.2.2)

/-- Closed rectangle membership: cv2 rectangles include both corners. -/
def inRect (x1 y1 x2 y2 : ℤ) (p : ℤ × ℤ) : Prop :=
  x1 ≤ p.1 ∧ p.1 ≤ x2 ∧ y1 ≤ p.2 ∧ p.2 ≤ y2

instance (x1 y1 x2 y2 : ℤ) (p : ℤ × ℤ) : Decidable (inRect x1 y1 x2 y2 p) := by
  unfold inRect; infer_instance

/-- Source lines 307-310: filled `cv2.rectangle` with corners `(x1,y1)`,
`(x2,y2)` (both inclusive). -/
def fillRect (x1 y1 x2 y2 : ℤ) (c : Pix) (f : Frame) : Frame :=
  fun p => if inRect x1 y1 x2 y2 p then c else f p

/-- Source lines 315-318: stroked `cv2.rectangle` of thickness `t` over the
given bounds.  OpenCV centers a thick stroke on the rectangle path, so the
painted band reaches `t/2` outside the bounds as well as `t/2` inside:
its footprint is the bounds expanded by `t/2` minus the strict interior
shrunk by `t/2`. -/
def borderRect (x1 y1 x2 y2 t : ℤ) (c : Pix) (f : Frame) : Frame :=
  fun p =>
    if inRect (x1 - t / 2) (y1 - t / 2) (x2 + t / 2) (y2 + t / 2) p ∧
        ¬ (x1 + t / 2 < p.1 ∧ p.1 < x2 - t / 2 ∧
          y1 + t / 2 < p.2 ∧ p.2 < y2 - t / 2) then c
    else f p

/-- Source lines 328-331: `cv2.putText` at baseline `(tx, ty)`; the glyph
box from `cv2.getTextSize` is `tw × th` above the baseline, and `glyph`
gives the backend-rasterized pixel values inside that box. -/
def drawTextAt (tx ty : ℤ) (tw th : ℕ) (glyph : ℤ × ℤ → Pix) (f : Frame) : Frame :=
  fun p =>
    if tx ≤ p.1 ∧ p.1 ≤ tx + tw ∧ ty - th ≤ p.2 ∧ p.2 ≤ ty then glyph p
    else f p

/-- Source lines 335-336: numpy slice assignment of the resized QR; numpy
slices are half-open. -/
def pasteRect (x y : ℤ) (s : ℕ) (img : ℤ × ℤ → Pix) (f : Frame) : Frame :=
  fun p =>
    if x ≤ p.1 ∧ p.1 < x + s ∧ y ≤ p.2 ∧ p.2 < y + s then img p
    else f p

/-- Source line 325: `text_x = container_x + (container_width - text_width) // 2`. -/
def text_x_of (w h : ℕ) (cx : ℤ) (tw : ℕ) : ℤ :=
  cx + Int.fdiv ((container_width w h : ℤ) - tw) 2

/-- Source line 326: `text_y = container_y + 40`. -/
def text_y_of (cy : ℤ) : ℤ := cy + 40

/-- Source lines 305-336: the fully drawn overlay copy of the frame —
white card fill, border, label text, pasted QR — at container position
`(cx, cy)`. -/
def cardOverlay (w h : ℕ) (cx cy : ℤ) (tw th : ℕ) (glyph qrImg : ℤ × ℤ → Pix)
    (f : Frame) : Frame :=
  pasteRect (qr_x_of w h cx) (qr_y_of cy) (qr_display_size w h) qrImg
    (drawTextAt (text_x_of w h cx tw) (text_y_of cy) tw th glyph
      (borderRect cx cy (cx + container_width w h) (cy + container_height w h) 8 wood_color
        (fillRect cx cy (cx + container_width w h) (cy + container_height w h) cardWhite f)))

/-- Source lines 305-339: draw the card on a copy of the frame and blend
the whole buffer back at opacity 0.95. -/
def drawCard (w h : ℕ) (cx cy : ℤ) (tw th : ℕ) (glyph qrImg : ℤ × ℤ → Pix)
    (f : Frame) : Frame :=
  fun p => blendPix (cardOverlay w h cx cy tw th glyph qrImg f p) (f p)

theorem blendChan_self {a : ℕ} (ha : a ≤ 255) : blendChan a a = a := by
  unfold blendChan
  omega

theorem blendPix_self {a : Pix} (ha : PixLe255 a) : blendPix a a = a := by
  obtain ⟨h1, h2, h3⟩ := ha
  unfold blendPix
  rw [blendChan_self h1, blendChan_self h2, blendChan_self h3]

/-- Python `int()` applied to a float: truncation toward zero. -/
noncomputable def truncR (x : ℝ) : ℤ := if 0 ≤ x then ⌊x⌋ else ⌈x⌉

/-- Source line 296: `y_range = height - container_height - (margin * 2)`. -/
def y_range (w h : ℕ) : ℤ := (h : ℤ) - container_height w h - 2 * margin

/-- Source lines 294-297: `progress = (frame_count - start_frame) /
float(duration_frames)`, `angle = progress * math.pi * 4`,
`offset_y = int((math.sin(angle) + 1) * y_range / 2)`.  `Real.sin`
idealizes IEEE `math.sin`; theorems only use its exact value where the
float result truncates identically (angle 0, and angle π where the float
sine is a nonnegative epsilon), and otherwise state within-one-pixel
bounds rather than exact equalities. -/
noncomputable def floatOffsetY (w h : ℕ) (fc start dur : ℤ) : ℤ :=
  truncR ((Real.sin (((fc : ℝ) - (start : ℝ)) / (dur : ℝ) * Real.pi * 4) + 1) *
    (y_range w h : ℝ) / 2)

/-- The floating offset exactly as the spec words it (§4.1): a function of
real progress, `offsetY = (sin(progress × 4π) + 1) × verticalRange / 2`;
used to compare the source's formula against the spec's. -/
noncomputable def specFloatingOffsetY (w h : ℕ) (p : ℝ) : ℝ :=
  (Real.sin (p * (4 * Real.pi)) + 1) * (y_range w h : ℝ) / 2

/-- Source lines 292 and 304: the half-open active window test
`frame_count >= start_frame and frame_count < start_frame + duration_frames`. -/
def activeAt (start dur fc : ℤ) : Prop := start ≤ fc ∧ fc < start + dur

instance (start dur fc : ℤ) : Decidable (activeAt start dur fc) := by
  unfold activeAt; infer_instance

/-- Source lines 292-302: the container's y coordinate for frame `fc`
(`container_x` is the base value in both branches). -/
noncomputable def containerY (w h : ℕ) (start dur : ℤ) (floating : Bool) (fc : ℤ) : ℤ :=
  if floating = true ∧ activeAt start dur fc then margin + floatOffsetY w h fc start dur
  else base_container_y w h

/-- Source lines 292-339: one iteration of the frame loop body — draw and
blend the card when the frame index is inside the window, otherwise pass
the frame through unmodified. -/
noncomputable def processFrame (w h : ℕ) (start dur : ℤ) (floating : Bool) (tw th : ℕ)
    (glyph qrImg : ℤ × ℤ → Pix) (fc : ℤ) (f : Frame) : Frame :=
  if activeAt start dur fc then
    drawCard w h (base_container_x w h) (containerY w h start dur floating fc) tw th glyph qrImg f
  else f

/-- Source lines 281-342: the while loop with its `frame_count` counter. -/
def frameLoop (step : ℤ → Frame → Frame) : ℤ → List Frame → List Frame
  | _, [] => []
  | fc, f :: rest => step fc f :: frameLoop step (fc + 1) rest

/-- What `cv2.VideoCapture` yields when the source opens: stream-reported
frame rate and geometry, and the decoded frame sequence. -/
structure SourceVideo where
  fps : ℚ
  width : ℕ
  height : ℕ
  frames : List Frame

/-- Observable output actions of `add_qr_to_video`, in program order. -/
inductive VideoEvent
  | outputOpened (fps : ℚ) (width height : ℕ)
  | frameWritten (f : Frame)

/-- Source lines 259-260: the failure raised when the source video cannot
be opened (the spec's UnreadableSource condition). -/
inductive VideoError
  | unreadableSource

/-- Source lines 347-353: the summary dictionary returned on success. -/
structure GenResult where
  total_frames : ℕ
  fps : ℚ
  video_duration_seconds : ℚ
  qr_position : String
  qr_persistent : Bool

/-- Source lines 254-353: `add_qr_to_video`.  `src` is `none` when
`cv2.VideoCapture` fails to open the source (line 259), in which case the
function raises before the `cv2.VideoWriter` of line 268 is created; on
success it opens the writer with the stream's own fps and geometry and
writes one processed frame per decoded frame. -/
noncomputable def addQrToVideo (src : Option SourceVideo) (start dur : ℤ) (floating : Bool)
    (tw th : ℕ) (glyph qrImg : ℤ × ℤ → Pix) :
    List VideoEvent × Except VideoError GenResult :=
  match src with
  | none => ([], Except.error VideoError.unreadableSource)
  | some v =>
      let outs := frameLoop (processFrame v.width v.height start dur floating tw th glyph qrImg)
        0 v.frames
      (VideoEvent.outputOpened v.fps v.width v.height :: outs.map VideoEvent.frameWritten,
        Except.ok
          { total_frames := v.frames.length
            fps := v.fps
            video_duration_seconds := (v.frames.length : ℚ) / v.fps
            qr_position := "bottom-right"
            qr_persistent := true })

/-- The frames carried by the write events of a trace, in order. -/
def writtenFrames (es : List VideoEvent) : List Frame :=
  es.filterMap fun e =>
    match e with
    | VideoEvent.frameWritten f => some f
    | _ => none

theorem processFrame_not_active {w h : ℕ} {start dur : ℤ} {floating : Bool} {tw th : ℕ}
    {glyph qrImg : ℤ × ℤ → Pix} {fc : ℤ} (h' : ¬ activeAt start dur fc) (f : Frame) :
    processFrame w h start dur floating tw th glyph qrImg fc f = f := by
  unfold processFrame
  rw [if_neg h']

theorem frameLoop_get? (step : ℤ → Frame → Frame) (n : ℤ) (l : List Frame) (i : ℕ) :
    (frameLoop step n l).get? i = (l.get? i).map fun f => step (n + i) f := by
  induction l generalizing n i with
  | nil => simp [frameLoop]
  | cons a rest ih =>
    cases i with
    | zero => simp [frameLoop]
    | succ j =>
      have e : (fun f => step (n + ((j : ℤ) + 1)) f) = fun f => step ((n + 1) + (j : ℤ)) f := by
        funext f
        congr 1
        ring
      simp only [frameLoop, List.get?_cons_succ, ih (n + 1) j]
      push_cast
      rw [e]

theorem frameLoop_length (step : ℤ → Frame → Frame) (n : ℤ) (l : List Frame) :
    (frameLoop step n l).length = l.length := by
  induction l generalizing n with
  | nil => rfl
  | cons a rest ih => simp [frameLoop, ih]

theorem frameLoop_eq_mapIdx (step : ℤ → Frame → Frame) (l : List Frame) (n : ℤ) :
    frameLoop step n l = l.mapIdx fun i f => step (n + i) f := by
  induction l generalizing n with
  | nil => simp [frameLoop]
  | cons a rest ih =>
    rw [List.mapIdx_cons]
    have e : (fun (i : ℕ) (f : Frame) => step (n + ((i : ℤ) + 1)) f) =
        fun (i : ℕ) (f : Frame) => step ((n + 1) + (i : ℤ)) f := by
      funext i f
      congr 1
      ring
    simp only [frameLoop, ih (n + 1)]
    push_cast
    rw [e]
    simp

theorem frameLoop_id (step : ℤ → Frame → Frame) (hid : ∀ fc f, step fc f = f)
    (n : ℤ) (l : List Frame) : frameLoop step n l = l := by
  induction l generalizing n with
  | nil => rfl
  | cons a rest ih => simp [frameLoop, hid, ih]

theorem writtenFrames_map_frameWritten (l : List Frame) :
    writtenFrames (l.map VideoEvent.frameWritten) = l := by
  induction l with
  | nil => rfl
  | cons a rest ih =>
    simp only [List.map_cons, writtenFrames, List.filterMap_cons] at *
    rw [ih]

theorem writtenFrames_addQr (v : SourceVideo) (start dur : ℤ) (floating : Bool)
    (tw th : ℕ) (glyph qrImg : ℤ × ℤ → Pix) :
    writtenFrames (addQrToVideo (some v) start dur floating tw th glyph qrImg).1 =
      frameLoop (processFrame v.width v.height start dur floating tw th glyph qrImg)
        0 v.frames := by
  show writtenFrames (VideoEvent.outputOpened v.fps v.width v.height ::
    (frameLoop (processFrame v.width v.height start dur floating tw th glyph qrImg)
      0 v.frames).map VideoEvent.frameWritten) = _
  simp only [writtenFrames, List.filterMap_cons]
  exact writtenFrames_map_frameWritten _

/-- C1: a frame whose 0-based index lies outside the half-open window
`[start, start + dur)` is written to the output exactly as it was read
from the source. -/
theorem inactive_frame_passthrough (v : SourceVideo) (start dur : ℤ) (floating : Bool)
    (tw th : ℕ) (glyph qrImg : ℤ × ℤ → Pix) (i : ℕ)
    (hout : ¬ activeAt start dur (i : ℤ)) :
    (writtenFrames (addQrToVideo (some v) start dur floating tw th glyph qrImg).1).get? i =
      v.frames.get? i := by
  rw [writtenFrames_addQr, frameLoop_get?]
  cases hg : v.frames.get? i with
  | none => rfl
  | some f =>
    simp [processFrame_not_active hout]

/-- Concrete instantiation of `inactive_frame_passthrough`: frame 0 of a
one-frame source with window `[5, 7)`. -/
theorem inactive_frame_passthrough_witness :
    (¬ activeAt 5 2 ((0 : ℕ) : ℤ)) ∧
    (writtenFrames (addQrToVideo
        (some ⟨30, 1920, 1080, [fun _ => (1, 2, 3)]⟩) 5 2 true 156 22
        (fun _ => (0, 0, 0)) (fun _ => (0, 0, 0))).1).get? 0 =
      (SourceVideo.mk 30 1920 1080 [fun _ => (1, 2, 3)]).frames.get? 0 :=
  ⟨by decide,
    inactive_frame_passthrough ⟨30, 1920, 1080, [fun _ => (1, 2, 3)]⟩ 5 2 true 156 22
      (fun _ => (0, 0, 0)) (fun _ => (0, 0, 0)) 0 (by decide)⟩

/-- C6: a window with non-positive duration marks no frame active (so the
guarded floating-progress division is never reached) and the output equals
the input frame-for-frame. -/
theorem zero_duration_window_passthrough (v : SourceVideo) (start dur : ℤ) (floating : Bool)
    (tw th : ℕ) (glyph qrImg : ℤ × ℤ → Pix) (hdur : dur ≤ 0) :
    (∀ fc : ℤ, ¬ activeAt start dur fc) ∧
    writtenFrames (addQrToVideo (some v) start dur floating tw th glyph qrImg).1 =
      v.frames := by
  have hna : ∀ fc : ℤ, ¬ activeAt start dur fc := by
    intro fc
    unfold activeAt
    omega
  refine ⟨hna, ?_⟩
  rw [writtenFrames_addQr]
  exact frameLoop_id _ (fun fc f => processFrame_not_active (hna fc) f) 0 v.frames

/-- Concrete instantiation of `zero_duration_window_passthrough`: the
spec's `[500, 500)` window on a two-frame source in floating mode. -/
theorem zero_duration_window_passthrough_witness :
    ((0 : ℤ) ≤ 0) ∧
    ((∀ fc : ℤ, ¬ activeAt 500 0 fc) ∧
      writtenFrames (addQrToVideo
          (some ⟨30, 1920, 1080, [fun _ => (9, 9, 9), fun _ => (4, 4, 4)]⟩) 500 0 true 156 22
          (fun _ => (0, 0, 0)) (fun _ => (0, 0, 0))).1 =
        (SourceVideo.mk 30 1920 1080 [fun _ => (9, 9, 9), fun _ => (4, 4, 4)]).frames) :=
  ⟨by decide,
    zero_duration_window_passthrough ⟨30, 1920, 1080, [fun _ => (9, 9, 9), fun _ => (4, 4, 4)]⟩
      500 0 true 156 22 (fun _ => (0, 0, 0)) (fun _ => (0, 0, 0)) (by decide)⟩

/-- C7: the written frame list is exactly the indexed map of the per-frame
step over the source frames — each source frame produces one output frame,
in source order, with no drops, duplicates or reordering — so output frame
count equals input frame count; and the output stream is opened with the
source stream's frame rate (and geometry). -/
theorem pipeline_preserves_count_order_fps (v : SourceVideo) (start dur : ℤ) (floating : Bool)
    (tw th : ℕ) (glyph qrImg : ℤ × ℤ → Pix) :
    writtenFrames (addQrToVideo (some v) start dur floating tw th glyph qrImg).1 =
      v.frames.mapIdx (fun i f =>
        processFrame v.width v.height start dur floating tw th glyph qrImg (i : ℤ) f) ∧
    (writtenFrames (addQrToVideo (some v) start dur floating tw th glyph qrImg).1).length =
      v.frames.length ∧
    (addQrToVideo (some v) start dur floating tw th glyph qrImg).1.head? =
      some (VideoEvent.outputOpened v.fps v.width v.height) := by
  refine ⟨?_, ?_, rfl⟩
  · rw [writtenFrames_addQr, frameLoop_eq_mapIdx]
    simp
  · rw [writtenFrames_addQr, frameLoop_length]

/-- C8: when the source cannot be opened, `add_qr_to_video` fails with the
UnreadableSource condition and its event trace is empty — in particular no
output stream is opened and no frame is written before the failure. -/
theorem unreadable_source_no_output (start dur : ℤ) (floating : Bool) (tw th : ℕ)
    (glyph qrImg : ℤ × ℤ → Pix) :
    (addQrToVideo none start dur floating tw th glyph qrImg).2 =
      Except.error VideoError.unreadableSource ∧
    (addQrToVideo none start dur floating tw th glyph qrImg).1 = [] :=
  ⟨rfl, rfl⟩

theorem truncR_eq_floor {x : ℝ} (hx : 0 ≤ x) : truncR x = ⌊x⌋ := by
  unfold truncR
  rw [if_pos hx]

theorem floor_intCast_div_two (a : ℤ) : ⌊((a : ℝ) / 2)⌋ = a / 2 := by
  have e : ((a : ℝ) / 2) = (((a : ℚ) / ((2 : ℕ) : ℚ) : ℚ) : ℝ) := by
    push_cast
    ring
  rw [e, Rat.floor_cast, Rat.floor_intCast_div_natCast]
  norm_num

theorem floatOffsetY_angle (w h : ℕ) (fc start dur : ℤ) (A : ℝ)
    (hA : ((fc : ℝ) - (start : ℝ)) / (dur : ℝ) * Real.pi * 4 = A) :
    floatOffsetY w h fc start dur =
      truncR ((Real.sin A + 1) * (y_range w h : ℝ) / 2) := by
  unfold floatOffsetY
  rw [hA]

theorem floatOffsetY_progress_zero (w h : ℕ) (start dur : ℤ) :
    floatOffsetY w h start start dur = truncR ((y_range w h : ℝ) / 2) := by
  rw [floatOffsetY_angle w h start start dur 0 (by simp), Real.sin_zero]
  norm_num

/-- C4: inside an active floating window the container's y coordinate is
exactly `margin + offsetY` with `offsetY` the spec's formula
`(sin(progress × 4π) + 1) × verticalRange / 2` rounded down (the source's
`int()` truncation coincides with the floor because the value is
nonnegative when `verticalRange ≥ 0`); the x coordinate stays at the base
`frameWidth - cardWidth - margin` for every frame; and the spec-side
offset completes two full sine cycles over the window (period 1/2 in
progress) while mapping sine's [-1, 1] onto [0, verticalRange]. -/
theorem floating_geometry_formula (w h : ℕ) (start dur fc : ℤ) (hd : 0 < dur)
    (hact : activeAt start dur fc) (hyr : 0 ≤ y_range w h) :
    containerY w h start dur true fc =
      margin + ⌊(Real.sin (((fc : ℝ) - (start : ℝ)) / (dur : ℝ) * (4 * Real.pi)) + 1) *
        (y_range w h : ℝ) / 2⌋ ∧
    base_container_x w h = (w : ℤ) - container_width w h - margin ∧
    (∀ p : ℝ, specFloatingOffsetY w h (p + 1 / 2) = specFloatingOffsetY w h p) ∧
    (∀ p : ℝ, 0 ≤ specFloatingOffsetY w h p ∧
      specFloatingOffsetY w h p ≤ (y_range w h : ℝ)) := by
  have hyrR : (0 : ℝ) ≤ (y_range w h : ℝ) := by exact_mod_cast hyr
  refine ⟨?_, rfl, ?_, ?_⟩
  · unfold containerY
    rw [if_pos ⟨rfl, hact⟩]
    congr 1
    unfold floatOffsetY
    have hs := Real.neg_one_le_sin (((fc : ℝ) - (start : ℝ)) / (dur : ℝ) * Real.pi * 4)
    have hE : (0 : ℝ) ≤
        (Real.sin (((fc : ℝ) - (start : ℝ)) / (dur : ℝ) * Real.pi * 4) + 1) *
          (y_range w h : ℝ) / 2 := by
      apply div_nonneg _ (by norm_num)
      exact mul_nonneg (by linarith) hyrR
    rw [truncR_eq_floor hE]
    congr 2
    ring
  · intro p
    unfold specFloatingOffsetY
    have e : (p + 1 / 2) * (4 * Real.pi) = p * (4 * Real.pi) + 2 * Real.pi := by ring
    rw [e, Real.sin_add_two_pi]
  · intro p
    unfold specFloatingOffsetY
    have h1 := Real.neg_one_le_sin (p * (4 * Real.pi))
    have h2 := Real.sin_le_one (p * (4 * Real.pi))
    constructor
    · apply div_nonneg _ (by norm_num)
      exact mul_nonneg (by linarith) hyrR
    · nlinarith

/-- Concrete instantiation of `floating_geometry_formula`: a 1920×1080
frame, window `[0, 300)`, at its first frame. -/
theorem floating_geometry_formula_witness :
    ((0 : ℤ) < 300 ∧ activeAt 0 300 0 ∧ 0 ≤ y_range 1920 1080) ∧
    (containerY 1920 1080 0 300 true 0 =
        margin + ⌊(Real.sin ((((0 : ℤ) : ℝ) - ((0 : ℤ) : ℝ)) / ((300 : ℤ) : ℝ) *
          (4 * Real.pi)) + 1) * (y_range 1920 1080 : ℝ) / 2⌋ ∧
      base_container_x 1920 1080 = ((1920 : ℕ) : ℤ) - container_width 1920 1080 - margin ∧
      (∀ p : ℝ, specFloatingOffsetY 1920 1080 (p + 1 / 2) = specFloatingOffsetY 1920 1080 p) ∧
      (∀ p : ℝ, 0 ≤ specFloatingOffsetY 1920 1080 p ∧
        specFloatingOffsetY 1920 1080 p ≤ (y_range 1920 1080 : ℝ))) :=
  ⟨⟨by decide, by decide, by decide⟩,
    floating_geometry_formula 1920 1080 0 300 0 (by decide) (by decide) (by decide)⟩

/-- C5 counterexample: with window `[0, 300)` on a 1920×1080 frame
(`y_range = 786`), frame 75 (progress 0.25, angle π, sin π = 0) maps to
`offsetY = 393` — exactly half of the maximum 786 that `offsetY`'s range
attains (at progress 1/8, angle π/2) and never exceeds.  The midpoint of
the range is not "near the maximum", so the claim is false at frame 75. -/
theorem frame75_is_midpoint_not_max :
    floatOffsetY 1920 1080 75 0 300 = 393 ∧
    specFloatingOffsetY 1920 1080 (1 / 8) = 786 ∧
    (∀ p : ℝ, specFloatingOffsetY 1920 1080 p ≤ 786) := by
  have hyr : y_range 1920 1080 = 786 := by decide
  refine ⟨?_, ?_, ?_⟩
  · rw [floatOffsetY_angle 1920 1080 75 0 300 Real.pi
      (by push_cast; field_simp; ring), Real.sin_pi, hyr]
    have e : ((0 : ℝ) + 1) * (((786 : ℤ) : ℝ)) / 2 = ((393 : ℤ) : ℝ) := by norm_num
    rw [e, truncR_eq_floor (by norm_num), Int.floor_intCast]
  · unfold specFloatingOffsetY
    have e : (1 / 8 : ℝ) * (4 * Real.pi) = Real.pi / 2 := by ring
    rw [e, Real.sin_pi_div_two, hyr]
    norm_num
  · intro p
    unfold specFloatingOffsetY
    rw [hyr]
    have h2 := Real.sin_le_one (p * (4 * Real.pi))
    push_cast
    nlinarith

/-- C5 (amended): with window `[0, 300)` frames 0 and 150 (angles 0 and
2π) map to approximately the same `offsetY` — within one pixel, since in
IEEE arithmetic `math.sin` at the rounded 2π is a hair below zero and can
truncate frame 150 one pixel lower than frame 0 (in the exact-sine model
the difference is zero, so the one-pixel bound is what the program is
guaranteed to satisfy); frame 75 (angle π) maps to `trunc(y_range / 2)` —
the midpoint of `offsetY`'s range, not its maximum; the continuous offset
attains its maximum `y_range` at progress 1/8 (frame 37.5 of this window)
and never exceeds it. -/
theorem floating_window_300_landmarks (w h : ℕ) (hyr : 0 ≤ y_range w h) :
    |floatOffsetY w h 0 0 300 - floatOffsetY w h 150 0 300| ≤ 1 ∧
    floatOffsetY w h 75 0 300 = truncR ((y_range w h : ℝ) / 2) ∧
    specFloatingOffsetY w h (1 / 8) = (y_range w h : ℝ) ∧
    (∀ p : ℝ, specFloatingOffsetY w h p ≤ (y_range w h : ℝ)) := by
  have hyrR : (0 : ℝ) ≤ (y_range w h : ℝ) := by exact_mod_cast hyr
  have e0 : floatOffsetY w h 0 0 300 = truncR ((y_range w h : ℝ) / 2) := by
    rw [floatOffsetY_angle w h 0 0 300 0 (by norm_num), Real.sin_zero]
    norm_num
  have e150 : floatOffsetY w h 150 0 300 = truncR ((y_range w h : ℝ) / 2) := by
    rw [floatOffsetY_angle w h 150 0 300 (2 * Real.pi)
      (by push_cast; field_simp; ring), Real.sin_two_pi]
    norm_num
  have e75 : floatOffsetY w h 75 0 300 = truncR ((y_range w h : ℝ) / 2) := by
    rw [floatOffsetY_angle w h 75 0 300 Real.pi
      (by push_cast; field_simp; ring), Real.sin_pi]
    norm_num
  refine ⟨?_, e75, ?_, ?_⟩
  · rw [e0, e150, sub_self, abs_zero]
    norm_num
  · unfold specFloatingOffsetY
    have e : (1 / 8 : ℝ) * (4 * Real.pi) = Real.pi / 2 := by ring
    rw [e, Real.sin_pi_div_two]
    ring
  · intro p
    unfold specFloatingOffsetY
    have h2 := Real.sin_le_one (p * (4 * Real.pi))
    nlinarith

/-- Concrete instantiation of `floating_window_300_landmarks` at
1920×1080 (`y_range = 786 ≥ 0`). -/
theorem floating_window_300_landmarks_witness :
    (0 ≤ y_range 1920 1080) ∧
    (|floatOffsetY 1920 1080 0 0 300 - floatOffsetY 1920 1080 150 0 300| ≤ 1 ∧
      floatOffsetY 1920 1080 75 0 300 = truncR ((y_range 1920 1080 : ℝ) / 2) ∧
      specFloatingOffsetY 1920 1080 (1 / 8) = (y_range 1920 1080 : ℝ) ∧
      (∀ p : ℝ, specFloatingOffsetY 1920 1080 p ≤ (y_range 1920 1080 : ℝ))) :=
  ⟨by decide, floating_window_300_landmarks 1920 1080 (by decide)⟩

/-- C10 counterexample: on a 1920×120 frame the card is 91 tall, so
`h - cardHeight = 29 < 2*margin` and `y_range = -1`.  The first floating
frame computes `y = margin + int(-0.5) = 15 + 0 = 15` (Python `int()`
truncates toward zero) while the static base position is
`(120 - 91) // 2 = 14` (floor division): the card jumps one pixel when the
floating window begins, so the claimed identity fails. -/
theorem floating_start_mismatch_1920x120 :
    containerY 1920 120 0 300 true 0 = 15 ∧
    base_container_y 1920 120 = 14 ∧
    containerY 1920 120 0 300 true 0 ≠ base_container_y 1920 120 := by
  have h15 : containerY 1920 120 0 300 true 0 = 15 := by
    unfold containerY
    rw [if_pos ⟨rfl, by decide⟩, floatOffsetY_progress_zero]
    have hy : y_range 1920 120 = -1 := by decide
    rw [hy]
    have e : (((-1 : ℤ) : ℝ) / 2) = -(1 / 2) := by norm_num
    rw [e]
    unfold truncR
    rw [if_neg (by norm_num)]
    have hc : ⌈(-(1 / 2) : ℝ)⌉ = 0 := by
      rw [Int.ceil_eq_iff]
      constructor <;> norm_num
    rw [hc]
    decide
  refine ⟨h15, by decide, ?_⟩
  rw [h15]
  decide

/-- C10 (amended): whenever the frame leaves the card at least `2*margin`
of vertical slack (`y_range ≥ 0`, i.e. `frameHeight ≥ cardHeight + 30`),
the first active floating frame lands exactly on the static base vertical
position, integer truncation included. -/
theorem floating_start_matches_static (w h : ℕ) (start dur : ℤ)
    (hact : activeAt start dur start) (hyr : 0 ≤ y_range w h) :
    containerY w h start dur true start = base_container_y w h := by
  unfold containerY
  rw [if_pos ⟨rfl, hact⟩, floatOffsetY_progress_zero]
  have hyrR : (0 : ℝ) ≤ (y_range w h : ℝ) / 2 := by
    apply div_nonneg _ (by norm_num)
    exact_mod_cast hyr
  rw [truncR_eq_floor hyrR, floor_intCast_div_two]
  unfold base_container_y
  rw [Int.fdiv_eq_ediv _ (by norm_num)]
  unfold y_range margin
  omega

/-- Concrete instantiation of `floating_start_matches_static`: 1920×1080,
window `[0, 300)`. -/
theorem floating_start_matches_static_witness :
    (activeAt 0 300 0 ∧ 0 ≤ y_range 1920 1080) ∧
    containerY 1920 1080 0 300 true 0 = base_container_y 1920 1080 :=
  ⟨⟨by decide, by decide⟩,
    floating_start_matches_static 1920 1080 0 300 (by decide) (by decide)⟩

/-- A query string as its decoded key/value pairs in wire order
(percent/plus encoding is a bijection between the wire form and the
decoded strings, so `urlencode` followed by `parse_qs` recovers decoded
pairs exactly; the model therefore works at the decoded-pair level). -/
abbrev QueryPairs := List (String × String)

/-- A `parse_qs` result: keys in first-occurrence order, each carrying its
list of values (Python dicts preserve insertion order). -/
abbrev QueryMap := List (String × List String)

/-- The keys of a query map, in order. -/
def keysOf (m : QueryMap) : List String := m.map Prod.fst

/-- One dict insertion inside `parse_qs`: append the value to the key's
existing entry, or create a new entry at the end. -/
def addToMap : QueryMap → String → String → QueryMap
  | [], k, v => [(k, [v])]
  | (k', vs) :: rest, k, v =>
      if k' = k then (k', vs ++ [v]) :: rest else (k', vs) :: addToMap rest k v

/-- One pair of `parse_qs`: pairs with a blank value are dropped (the
default `keep_blank_values=False`). -/
def qsStep (m : QueryMap) (kv : String × String) : QueryMap :=
  if kv.2 = "" then m else addToMap m kv.1 kv.2

/-- `parse_qs` continued from an accumulated map (the generalization that
makes induction over the pair list possible). -/
def parseFrom (m : QueryMap) (q : QueryPairs) : QueryMap := q.foldl qsStep m

/-- Source line 217: `existing_params = parse_qs(parsed.query)`. -/
def parse_qs (q : QueryPairs) : QueryMap := parseFrom [] q

/-- Source line 230: `urlencode(existing_params, doseq=True)` — flatten the
map back into wire pairs, keys in map order, each key's values adjacent. -/
def urlencode (m : QueryMap) : QueryPairs :=
  m.flatMap fun kv => kv.2.map fun v => (kv.1, v)

/-- The six components of `urlparse`, with the query as decoded pairs. -/
structure ParsedUrl where
  scheme : String
  netloc : String
  path : String
  params : String
  query : QueryPairs
  fragment : String

/-- Source lines 219-224: the `utm_params` dict in insertion order. -/
def utm_params (practice_type organization_id : String) : List (String × String) :=
  [("utm_source", "cherry_video_generator"),
    ("utm_medium", "qr_code_cherry_video_generator"),
    ("utm_campaign", "waiting_room_" ++ practice_type),
    ("utm_content", organization_id)]

/-- Source lines 226-228: `if key not in existing_params:
existing_params[key] = [value]` for each UTM pair, in dict order. -/
def addUtms (m : QueryMap) (ps : List (String × String)) : QueryMap :=
  ps.foldl (fun acc kv => if kv.1 ∈ keysOf acc then acc else acc ++ [(kv.1, [kv.2])]) m

/-- Source lines 211-232: `append_utm_params` — parse the query, add the
missing UTM keys, re-encode, and keep every other URL component. -/
def append_utm_params (u : ParsedUrl) (practice_type organization_id : String) : ParsedUrl :=
  { u with query :=
      urlencode (addUtms (parse_qs u.query) (utm_params practice_type organization_id)) }

/-- The values a map holds for a key (first entry wins, as in a dict). -/
def getVals : QueryMap → String → Option (List String)
  | [], _ => none
  | (k', vs) :: rest, k => if k' = k then some vs else getVals rest k

/-- Drop blank strings from a value list. -/
def filterNB : List String → List String
  | [] => []
  | v :: rest => if v = "" then filterNB rest else v :: filterNB rest

/-- Drop blank values from a map, removing entries left empty: what a
re-parse of an encoded map keeps of it. -/
def dropBlanks : QueryMap → QueryMap
  | [] => []
  | (k, vs) :: rest =>
      if filterNB vs = [] then dropBlanks rest else (k, filterNB vs) :: dropBlanks rest

/-- The entries `addUtms` appends to `m`: one singleton entry per pair
whose key `m` lacks, in pair order. -/
def newEntries (m : QueryMap) : List (String × String) → QueryMap
  | [] => []
  | kv :: rest =>
      if kv.1 ∈ keysOf m then newEntries m rest
      else (kv.1, [kv.2]) :: newEntries m rest

/-- Every value list of the map is nonempty and free of blanks (true of
every `parse_qs` result). -/
def ValsOK (m : QueryMap) : Prop := ∀ kv ∈ m, kv.2 ≠ [] ∧ "" ∉ kv.2

theorem keysOf_append (a b : QueryMap) : keysOf (a ++ b) = keysOf a ++ keysOf b :=
  List.map_append _ a b

theorem keysOf_cons (k : String) (vs : List String) (rest : QueryMap) :
    keysOf ((k, vs) :: rest) = k :: keysOf rest := rfl

theorem addToMap_not_mem {m : QueryMap} {k : String} (v : String) (hk : k ∉ keysOf m) :
    addToMap m k v = m ++ [(k, [v])] := by
  induction m with
  | nil => rfl
  | cons kv rest ih =>
    obtain ⟨k', vs⟩ := kv
    rw [keysOf_cons, List.mem_cons] at hk
    push_neg at hk
    simp only [addToMap]
    rw [if_neg (Ne.symm hk.1), List.cons_append, ih hk.2]

theorem addToMap_append_last {acc : QueryMap} {k : String} (ws : List String) (v : String)
    (hk : k ∉ keysOf acc) :
    addToMap (acc ++ [(k, ws)]) k v = acc ++ [(k, ws ++ [v])] := by
  induction acc with
  | nil => simp [addToMap]
  | cons kv rest ih =>
    obtain ⟨k', vs⟩ := kv
    rw [keysOf_cons, List.mem_cons] at hk
    push_neg at hk
    rw [List.cons_append, List.cons_append]
    simp only [addToMap]
    rw [if_neg (Ne.symm hk.1), ih hk.2]

theorem addToMap_keys (m : QueryMap) (k v : String) :
    keysOf (addToMap m k v) = if k ∈ keysOf m then keysOf m else keysOf m ++ [k] := by
  induction m with
  | nil => simp [addToMap, keysOf]
  | cons kv rest ih =>
    obtain ⟨k', vs⟩ := kv
    by_cases hk : k' = k
    · subst hk
      simp [addToMap, keysOf_cons]
    · simp only [addToMap, if_neg hk, keysOf_cons, List.mem_cons]
      rw [ih]
      by_cases hm : k ∈ keysOf rest
      · rw [if_pos hm, if_pos (Or.inr hm)]
      · rw [if_neg hm, if_neg ?_, List.cons_append]
        rintro (e | e)
        · exact hk e.symm
        · exact hm e

theorem parseFrom_append (m : QueryMap) (q1 q2 : QueryPairs) :
    parseFrom m (q1 ++ q2) = parseFrom (parseFrom m q1) q2 :=
  List.foldl_append _ _ _ _

theorem parseFrom_group_last {acc : QueryMap} {k : String} (ws vs : List String)
    (hk : k ∉ keysOf acc) :
    parseFrom (acc ++ [(k, ws)]) (vs.map fun v => (k, v)) =
      acc ++ [(k, ws ++ filterNB vs)] := by
  induction vs generalizing ws with
  | nil => simp [parseFrom, filterNB]
  | cons v rest ih =>
    rw [List.map_cons]
    show parseFrom (qsStep (acc ++ [(k, ws)]) (k, v)) (rest.map fun x => (k, x)) = _
    by_cases hv : v = ""
    · rw [show qsStep (acc ++ [(k, ws)]) (k, v) = acc ++ [(k, ws)] from if_pos hv, ih ws]
      simp [filterNB, hv]
    · rw [show qsStep (acc ++ [(k, ws)]) (k, v) = addToMap (acc ++ [(k, ws)]) k v from
        if_neg hv, addToMap_append_last ws v hk, ih (ws ++ [v])]
      simp [filterNB, hv]

/-- The entry a fresh key group contributes after blank-dropping. -/
def entryNB (k : String) (vs : List String) : QueryMap :=
  if filterNB vs = [] then [] else [(k, filterNB vs)]

theorem parseFrom_group {acc : QueryMap} {k : String} (vs : List String)
    (hk : k ∉ keysOf acc) :
    parseFrom acc (vs.map fun v => (k, v)) = acc ++ entryNB k vs := by
  induction vs with
  | nil => simp [parseFrom, entryNB, filterNB]
  | cons v rest ih =>
    rw [List.map_cons]
    show parseFrom (qsStep acc (k, v)) (rest.map fun x => (k, x)) = _
    by_cases hv : v = ""
    · rw [show qsStep acc (k, v) = acc from if_pos hv, ih]
      simp [entryNB, filterNB, hv]
    · rw [show qsStep acc (k, v) = addToMap acc k v from if_neg hv,
        addToMap_not_mem v hk, parseFrom_group_last [v] rest hk]
      simp [entryNB, filterNB, hv]

theorem urlencode_cons (k : String) (vs : List String) (rest : QueryMap) :
    urlencode ((k, vs) :: rest) = (vs.map fun v => (k, v)) ++ urlencode rest := by
  simp [urlencode]

theorem parseFrom_urlencode : ∀ {m : QueryMap}, (keysOf m).Nodup →
    ∀ acc : QueryMap, (∀ k ∈ keysOf m, k ∉ keysOf acc) →
      parseFrom acc (urlencode m) = acc ++ dropBlanks m := by
  intro m
  induction m with
  | nil =>
    intro _ acc _
    simp [urlencode, parseFrom, dropBlanks]
  | cons kv rest ih =>
    obtain ⟨k, vs⟩ := kv
    intro hnd acc hdisj
    rw [keysOf_cons] at hnd
    have hknr : k ∉ keysOf rest := (List.nodup_cons.mp hnd).1
    have hnd' : (keysOf rest).Nodup := (List.nodup_cons.mp hnd).2
    have hka : k ∉ keysOf acc := hdisj k (by simp [keysOf_cons])
    have hdisj2 : ∀ k' ∈ keysOf rest, k' ∉ keysOf (acc ++ entryNB k vs) := by
      intro k' hk'
      rw [keysOf_append, List.mem_append]
      push_neg
      refine ⟨hdisj k' (by simp [keysOf_cons, hk']), ?_⟩
      intro hmem
      unfold entryNB at hmem
      by_cases he : filterNB vs = []
      · rw [if_pos he] at hmem
        simp [keysOf] at hmem
      · rw [if_neg he] at hmem
        simp [keysOf] at hmem
        exact hknr (hmem ▸ hk')
    rw [urlencode_cons, parseFrom_append, parseFrom_group vs hka, ih hnd' _ hdisj2]
    by_cases he : filterNB vs = []
    · simp [dropBlanks, entryNB, he]
    · simp [dropBlanks, entryNB, he]

theorem valsOK_addToMap {k v : String} (hv : v ≠ "") :
    ∀ {m : QueryMap}, ValsOK m → ValsOK (addToMap m k v) := by
  intro m
  induction m with
  | nil =>
    intro _ kv hkv
    simp only [addToMap, List.mem_singleton] at hkv
    subst hkv
    exact ⟨by simp, by simp [Ne.symm hv]⟩
  | cons kv0 rest ih =>
    obtain ⟨k', vs⟩ := kv0
    intro hm kv hkv
    have hrest : ValsOK rest := fun x hx => hm x (List.mem_cons_of_mem _ hx)
    simp only [addToMap] at hkv
    by_cases hk : k' = k
    · rw [if_pos hk] at hkv
      rcases List.mem_cons.mp hkv with rfl | hmem
      · have h0 := hm (k', vs) (by simp)
        refine ⟨by simp, ?_⟩
        rw [List.mem_append]
        rintro (hc | hc)
        · exact h0.2 hc
        · rw [List.mem_singleton] at hc
          exact hv hc.symm
      · exact hm kv (List.mem_cons_of_mem _ hmem)
    · rw [if_neg hk] at hkv
      rcases List.mem_cons.mp hkv with rfl | hmem
      · exact hm (k', vs) (by simp)
      · exact ih hrest kv hmem

theorem valsOK_parseFrom : ∀ (q : QueryPairs) {m : QueryMap},
    ValsOK m → ValsOK (parseFrom m q) := by
  intro q
  induction q with
  | nil => intro m hm; exact hm
  | cons kv rest ih =>
    intro m hm
    show ValsOK (parseFrom (qsStep m kv) rest)
    apply ih
    unfold qsStep
    by_cases hv : kv.2 = ""
    · rw [if_pos hv]; exact hm
    · rw [if_neg hv]; exact valsOK_addToMap hv hm

theorem valsOK_parse_qs (q : QueryPairs) : ValsOK (parse_qs q) :=
  valsOK_parseFrom q (by intro kv hkv; cases hkv)

theorem keys_nodup_parseFrom : ∀ (q : QueryPairs) {m : QueryMap},
    (keysOf m).Nodup → (keysOf (parseFrom m q)).Nodup := by
  intro q
  induction q with
  | nil => intro m hm; exact hm
  | cons kv rest ih =>
    intro m hm
    show (keysOf (parseFrom (qsStep m kv) rest)).Nodup
    apply ih
    unfold qsStep
    by_cases hv : kv.2 = ""
    · rw [if_pos hv]; exact hm
    · rw [if_neg hv, addToMap_keys]
      by_cases hk : kv.1 ∈ keysOf m
      · rw [if_pos hk]; exact hm
      · rw [if_neg hk, List.nodup_append]
        exact ⟨hm, List.nodup_singleton _,
          fun a ha hb => hk ((List.mem_singleton.mp hb) ▸ ha)⟩

theorem keys_nodup_parse_qs (q : QueryPairs) : (keysOf (parse_qs q)).Nodup :=
  keys_nodup_parseFrom q (by simp [keysOf])

theorem filterNB_of_noBlank : ∀ {vs : List String}, "" ∉ vs → filterNB vs = vs := by
  intro vs
  induction vs with
  | nil => intro _; rfl
  | cons v rest ih =>
    intro h
    rw [List.mem_cons] at h
    push_neg at h
    simp only [filterNB]
    rw [if_neg (fun e => h.1 e.symm), ih h.2]

theorem dropBlanks_of_valsOK : ∀ {m : QueryMap}, ValsOK m → dropBlanks m = m := by
  intro m
  induction m with
  | nil => intro _; rfl
  | cons kv rest ih =>
    intro hm
    obtain ⟨k, vs⟩ := kv
    have h0 := hm (k, vs) (by simp)
    have hf : filterNB vs = vs := filterNB_of_noBlank h0.2
    simp only [dropBlanks]
    rw [hf, if_neg h0.1, ih (fun x hx => hm x (List.mem_cons_of_mem _ hx))]

theorem dropBlanks_append : ∀ (a b : QueryMap),
    dropBlanks (a ++ b) = dropBlanks a ++ dropBlanks b := by
  intro a b
  induction a with
  | nil => rfl
  | cons kv rest ih =>
    obtain ⟨k, vs⟩ := kv
    rw [List.cons_append]
    simp only [dropBlanks]
    by_cases he : filterNB vs = []
    · rw [if_pos he, if_pos he, ih]
    · rw [if_neg he, if_neg he, ih, List.cons_append]

theorem newEntries_append (m : QueryMap) : ∀ (ps qs : List (String × String)),
    newEntries m (ps ++ qs) = newEntries m ps ++ newEntries m qs := by
  intro ps qs
  induction ps with
  | nil => rfl
  | cons kv rest ih =>
    rw [List.cons_append]
    simp only [newEntries]
    by_cases hk : kv.1 ∈ keysOf m
    · rw [if_pos hk, if_pos hk, ih]
    · rw [if_neg hk, if_neg hk, ih, List.cons_append]

theorem newEntries_keys_mem {m : QueryMap} {k : String} :
    ∀ {ps : List (String × String)}, k ∈ keysOf (newEntries m ps) →
      k ∉ keysOf m ∧ k ∈ ps.map Prod.fst := by
  intro ps
  induction ps with
  | nil => intro h; simp [newEntries, keysOf] at h
  | cons kv rest ih =>
    intro h
    simp only [newEntries] at h
    by_cases hk : kv.1 ∈ keysOf m
    · rw [if_pos hk] at h
      obtain ⟨h1, h2⟩ := ih h
      exact ⟨h1, by simp [h2]⟩
    · rw [if_neg hk] at h
      rw [keysOf_cons, List.mem_cons] at h
      rcases h with rfl | h
      · exact ⟨hk, by simp⟩
      · obtain ⟨h1, h2⟩ := ih h
        exact ⟨h1, by simp [h2]⟩

theorem newEntries_keys_nodup {m : QueryMap} :
    ∀ {ps : List (String × String)}, (ps.map Prod.fst).Nodup →
      (keysOf (newEntries m ps)).Nodup := by
  intro ps
  induction ps with
  | nil => intro _; simp [newEntries, keysOf]
  | cons kv rest ih =>
    intro hnd
    rw [List.map_cons, List.nodup_cons] at hnd
    simp only [newEntries]
    by_cases hk : kv.1 ∈ keysOf m
    · rw [if_pos hk]; exact ih hnd.2
    · rw [if_neg hk, keysOf_cons, List.nodup_cons]
      exact ⟨fun hmem => hnd.1 (newEntries_keys_mem hmem).2, ih hnd.2⟩

theorem newEntries_eq_nil {m : QueryMap} :
    ∀ {ps : List (String × String)}, (∀ kv ∈ ps, kv.1 ∈ keysOf m) →
      newEntries m ps = [] := by
  intro ps
  induction ps with
  | nil => intro _; rfl
  | cons kv rest ih =>
    intro h
    simp only [newEntries]
    rw [if_pos (h kv (by simp))]
    exact ih fun x hx => h x (by simp [hx])

theorem newEntries_valsOK {m : QueryMap} :
    ∀ {ps : List (String × String)},
      (∀ kv ∈ ps, kv.1 ∉ keysOf m → kv.2 ≠ "") → ValsOK (newEntries m ps) := by
  intro ps
  induction ps with
  | nil => intro _ kv hkv; cases hkv
  | cons kv0 rest ih =>
    intro h kv hkv
    simp only [newEntries] at hkv
    by_cases hk : kv0.1 ∈ keysOf m
    · rw [if_pos hk] at hkv
      exact ih (fun x hx => h x (by simp [hx])) kv hkv
    · rw [if_neg hk] at hkv
      rcases List.mem_cons.mp hkv with rfl | hmem
      · have hv := h kv0 (by simp) hk
        exact ⟨by simp, by simp [Ne.symm hv]⟩
      · exact ih (fun x hx => h x (by simp [hx])) kv hmem

theorem mem_keys_append_newEntries {m : QueryMap} :
    ∀ {ps : List (String × String)} {kv : String × String}, kv ∈ ps →
      kv.1 ∈ keysOf (m ++ newEntries m ps) := by
  intro ps
  induction ps with
  | nil => intro kv h; cases h
  | cons kv0 rest ih =>
    intro kv h
    rw [keysOf_append, List.mem_append]
    simp only [newEntries]
    by_cases hk : kv0.1 ∈ keysOf m
    · rw [if_pos hk]
      rcases List.mem_cons.mp h with rfl | hmem
      · exact Or.inl hk
      · have := ih hmem
        rw [keysOf_append, List.mem_append] at this
        exact this
    · rw [if_neg hk, keysOf_cons]
      rcases List.mem_cons.mp h with rfl | hmem
      · exact Or.inr (by simp)
      · have := ih hmem
        rw [keysOf_append, List.mem_append] at this
        rcases this with hl | hr
        · exact Or.inl hl
        · exact Or.inr (by simp [hr])

theorem newEntries_congr {m1 m2 : QueryMap} :
    ∀ {ps : List (String × String)},
      (∀ kv ∈ ps, (kv.1 ∈ keysOf m1 ↔ kv.1 ∈ keysOf m2)) →
      newEntries m1 ps = newEntries m2 ps := by
  intro ps
  induction ps with
  | nil => intro _; rfl
  | cons kv rest ih =>
    intro h
    have hiff := h kv (by simp)
    simp only [newEntries]
    by_cases hk : kv.1 ∈ keysOf m1
    · rw [if_pos hk, if_pos (hiff.mp hk)]
      exact ih fun x hx => h x (by simp [hx])
    · rw [if_neg hk, if_neg (fun hx => hk (hiff.mpr hx))]
      rw [ih fun x hx => h x (by simp [hx])]

theorem addUtms_eq_append : ∀ (ps : List (String × String)) (m : QueryMap),
    (ps.map Prod.fst).Nodup → addUtms m ps = m ++ newEntries m ps := by
  intro ps
  induction ps with
  | nil => intro m _; simp [addUtms, newEntries]
  | cons kv rest ih =>
    intro m hnd
    rw [List.map_cons, List.nodup_cons] at hnd
    show addUtms (if kv.1 ∈ keysOf m then m else m ++ [(kv.1, [kv.2])]) rest = _
    simp only [newEntries]
    by_cases hk : kv.1 ∈ keysOf m
    · rw [if_pos hk, if_pos hk, ih m hnd.2]
    · rw [if_neg hk, if_neg hk, ih _ hnd.2]
      have hcongr : newEntries (m ++ [(kv.1, [kv.2])]) rest = newEntries m rest := by
        apply newEntries_congr
        intro x hx
        have hne : x.1 ≠ kv.1 := fun e => hnd.1 (e ▸ List.mem_map_of_mem Prod.fst hx)
        rw [keysOf_append, List.mem_append]
        constructor
        · rintro (hm | hm)
          · exact hm
          · simp [keysOf] at hm
            exact absurd hm hne
        · exact Or.inl
      rw [hcongr, List.append_assoc, List.singleton_append]

theorem getVals_append_left {k : String} (m' : QueryMap) :
    ∀ {m : QueryMap}, k ∈ keysOf m → getVals (m ++ m') k = getVals m k := by
  intro m
  induction m with
  | nil => intro hk; simp [keysOf] at hk
  | cons kv rest ih =>
    intro hk
    obtain ⟨k', vs⟩ := kv
    rw [List.cons_append]
    simp only [getVals]
    by_cases he : k' = k
    · rw [if_pos he, if_pos he]
    · rw [if_neg he, if_neg he]
      apply ih
      rw [keysOf_cons, List.mem_cons] at hk
      rcases hk with rfl | hk
      · exact absurd rfl he
      · exact hk

theorem waiting_room_ne_empty (pt : String) : "waiting_room_" ++ pt ≠ "" := by
  intro h
  have hl := congrArg String.length h
  rw [String.length_append] at hl
  have h13 : ("waiting_room_" : String).length = 13 := rfl
  have h0 : ("" : String).length = 0 := rfl
  rw [h13, h0] at hl
  omega

/-- C9: `append_utm_params` is idempotent — applying it twice with the
same practice type and organization id equals applying it once — and for
any of the four UTM keys already present in the URL's query the augmenter
keeps that key's parsed values exactly as they were (no duplicate entry,
no overridden value). -/
theorem append_utm_params_idem (u : ParsedUrl) (p o : String) :
    append_utm_params (append_utm_params u p o) p o = append_utm_params u p o ∧
    (∀ kv ∈ utm_params p o, kv.1 ∈ keysOf (parse_qs u.query) →
      getVals (parse_qs ((append_utm_params u p o).query)) kv.1 =
        getVals (parse_qs u.query) kv.1) := by
  set e := parse_qs u.query with he_def
  have hmapfst : (utm_params p o).map Prod.fst =
      ["utm_source", "utm_medium", "utm_campaign", "utm_content"] := rfl
  have hndutm : ((utm_params p o).map Prod.fst).Nodup := by
    rw [hmapfst]
    decide
  have he_nodup : (keysOf e).Nodup := keys_nodup_parse_qs u.query
  have he_vals : ValsOK e := valsOK_parse_qs u.query
  set N := newEntries e (utm_params p o) with hN_def
  have hQ1 : addUtms e (utm_params p o) = e ++ N := addUtms_eq_append _ e hndutm
  have hndeN : (keysOf (e ++ N)).Nodup := by
    rw [keysOf_append, List.nodup_append]
    exact ⟨he_nodup, newEntries_keys_nodup hndutm,
      fun a ha hb => (newEntries_keys_mem hb).1 ha⟩
  have hparse1 : parse_qs (urlencode (e ++ N)) = e ++ dropBlanks N := by
    show parseFrom [] (urlencode (e ++ N)) = _
    rw [parseFrom_urlencode hndeN [] (by intro k _; simp [keysOf]),
      List.nil_append, dropBlanks_append, dropBlanks_of_valsOK he_vals]
  have hmain : addUtms (e ++ dropBlanks N) (utm_params p o) = e ++ N := by
    rw [addUtms_eq_append _ _ hndutm]
    by_cases hC : "utm_content" ∈ keysOf e ∨ o ≠ ""
    · have hvals : ValsOK N := by
        apply newEntries_valsOK
        intro kv hkv hnk
        simp only [utm_params, List.mem_cons, List.not_mem_nil, or_false] at hkv
        rcases hkv with rfl | rfl | rfl | rfl
        · decide
        · decide
        · exact waiting_room_ne_empty p
        · rcases hC with hc | hc
          · exact absurd hc hnk
          · exact hc
      have hdropN : dropBlanks N = N := dropBlanks_of_valsOK hvals
      rw [hdropN, newEntries_eq_nil (fun kv hkv => mem_keys_append_newEntries hkv),
        List.append_nil]
    · push_neg at hC
      obtain ⟨hnc, ho⟩ := hC
      subst ho
      have hsplit : utm_params p "" =
          [("utm_source", "cherry_video_generator"),
            ("utm_medium", "qr_code_cherry_video_generator"),
            ("utm_campaign", "waiting_room_" ++ p)] ++ [("utm_content", "")] := rfl
      set ps3 : List (String × String) :=
        [("utm_source", "cherry_video_generator"),
          ("utm_medium", "qr_code_cherry_video_generator"),
          ("utm_campaign", "waiting_room_" ++ p)] with hps3
      set N3 := newEntries e ps3 with hN3
      have hNsplit : N = N3 ++ [("utm_content", [""])] := by
        rw [hN_def, hsplit, newEntries_append]
        congr 1
        simp only [newEntries]
        rw [if_neg hnc]
      have hvals3 : ValsOK N3 := by
        apply newEntries_valsOK
        intro kv hkv _
        simp only [hps3, List.mem_cons, List.not_mem_nil, or_false] at hkv
        rcases hkv with rfl | rfl | rfl
        · decide
        · decide
        · exact waiting_room_ne_empty p
      have hdropN : dropBlanks N = N3 := by
        rw [hNsplit, dropBlanks_append, dropBlanks_of_valsOK hvals3]
        have hblank : dropBlanks [("utm_content", [""])] = [] := by decide
        rw [hblank, List.append_nil]
      rw [hdropN]
      have hsplitNE : newEntries (e ++ N3) (utm_params p "") =
          newEntries (e ++ N3) ps3 ++ newEntries (e ++ N3) [("utm_content", "")] := by
        rw [hsplit, newEntries_append]
      have h3nil : newEntries (e ++ N3) ps3 = [] :=
        newEntries_eq_nil fun kv hkv => mem_keys_append_newEntries hkv
      have hclast : "utm_content" ∉ keysOf (e ++ N3) := by
        rw [keysOf_append, List.mem_append]
        rintro (hc | hc)
        · exact hnc hc
        · have hmem := (newEntries_keys_mem hc).2
          have hm3 : ps3.map Prod.fst = ["utm_source", "utm_medium", "utm_campaign"] := rfl
          rw [hm3] at hmem
          revert hmem
          decide
      have hlast : newEntries (e ++ N3) [("utm_content", "")] = [("utm_content", [""])] := by
        simp only [newEntries]
        rw [if_neg hclast]
      rw [hsplitNE, h3nil, hlast, List.nil_append, hNsplit, List.append_assoc]
  have hq : (append_utm_params u p o).query = urlencode (e ++ N) := by
    show urlencode (addUtms (parse_qs u.query) (utm_params p o)) = urlencode (e ++ N)
    rw [← he_def, hQ1]
  constructor
  · have hFq : urlencode (addUtms (parse_qs ((append_utm_params u p o).query))
        (utm_params p o)) = (append_utm_params u p o).query := by
      rw [hq, hparse1, hmain]
    show { append_utm_params u p o with
        query := urlencode (addUtms (parse_qs ((append_utm_params u p o).query))
          (utm_params p o)) } = append_utm_params u p o
    rw [hFq]
  · intro kv hkv hkey
    have hp2 : parse_qs ((append_utm_params u p o).query) = e ++ dropBlanks N := by
      rw [hq, hparse1]
    rw [hp2]
    exact getVals_append_left _ hkey

/-- Concrete instantiation of `append_utm_params_idem`: a URL whose query
already carries `utm_source=existing` plus an unrelated parameter. -/
theorem append_utm_params_idem_witness :
    ((("utm_source", "cherry_video_generator") ∈ utm_params "dental_30sec" "org42" ∧
        "utm_source" ∈ keysOf (parse_qs
          (ParsedUrl.mk "https" "pay.example.com" "/apply" ""
            [("utm_source", "existing"), ("ref", "qr")] "").query)) ∧
      (append_utm_params (append_utm_params
            (ParsedUrl.mk "https" "pay.example.com" "/apply" ""
              [("utm_source", "existing"), ("ref", "qr")] "") "dental_30sec" "org42")
          "dental_30sec" "org42" =
        append_utm_params
          (ParsedUrl.mk "https" "pay.example.com" "/apply" ""
            [("utm_source", "existing"), ("ref", "qr")] "") "dental_30sec" "org42" ∧
      getVals (parse_qs ((append_utm_params
          (ParsedUrl.mk "https" "pay.example.com" "/apply" ""
            [("utm_source", "existing"), ("ref", "qr")] "") "dental_30sec" "org42").query))
          "utm_source" =
        getVals (parse_qs
          (ParsedUrl.mk "https" "pay.example.com" "/apply" ""
            [("utm_source", "existing"), ("ref", "qr")] "").query) "utm_source")) :=
  ⟨⟨by decide, by decide⟩,
    (append_utm_params_idem
      (ParsedUrl.mk "https" "pay.example.com" "/apply" ""
        [("utm_source", "existing"), ("ref", "qr")] "") "dental_30sec" "org42").1,
    (append_utm_params_idem
      (ParsedUrl.mk "https" "pay.example.com" "/apply" ""
        [("utm_source", "existing"), ("ref", "qr")] "") "dental_30sec" "org42").2
      ("utm_source", "cherry_video_generator") (by decide) (by decide)⟩
